import Mathlib

/-!
# Verification of the starlark-rust value/heap layer

A shallow embedding of the value-layer code of the `starlark` crate
(`values/num.rs`, `values/types/array.rs`, `values/layout/avalue.rs`,
`environment/slots.rs`, `values/traits.rs`) together with proofs of the
specified properties: numeric hash unification, array capacity invariants,
the forwarding-based freeze/copy engine (cycle safety, failure behaviour,
static empty-list sharing), `downcast_ref`, module slots and the default
`write_hash` implementation.
-/

namespace Starlark

/-! ## Model of Rust `f64` (from `values/num.rs`)

`f64` is modelled by the three fields of its IEEE 754 binary64 bit pattern:
the sign bit, the 11-bit biased exponent and the 52-bit fraction.  The
operations used by `Num` (`is_nan`, `is_infinite`, `to_bits`, `==`, the
saturating `as i32` cast and the `i32 -> f64` cast) are defined from the
IEEE 754 semantics of those bit patterns. -/

structure F64 where
  sign : Bool
  expo : ℕ
  frac : ℕ
deriving DecidableEq

/-- `f64::is_nan`: exponent field all ones and non-zero fraction. -/
def F64.isNan (f : F64) : Bool := f.expo == 2047 && f.frac != 0

/-- `f64::is_infinite`: exponent field all ones and zero fraction. -/
def F64.isInfinite (f : F64) : Bool := f.expo == 2047 && f.frac == 0

/-- `f64::to_bits`: the 64-bit pattern as a natural number. -/
def F64.toBits (f : F64) : ℕ :=
  (if f.sign then 2 ^ 63 else 0) + f.expo * 2 ^ 52 + f.frac

/-- The real (rational) value of a finite bit pattern: subnormals for a zero
exponent field, an implicit leading mantissa bit otherwise. -/
def F64.val (f : F64) : ℚ :=
  let mag : ℚ :=
    if f.expo = 0 then (f.frac : ℚ) / 2 ^ 1074
    else ((2 ^ 52 + f.frac : ℕ) : ℚ) * (2 : ℚ) ^ ((f.expo : ℤ) - 1075)
  if f.sign then -mag else mag

/-- IEEE 754 `==` on `f64`: `false` whenever either side is a NaN, sign-aware
on infinities, and value comparison on finite patterns (hence `0.0 == -0.0`). -/
def F64.ieeeEq (a b : F64) : Bool :=
  if a.isNan || b.isNan then false
  else if a.isInfinite || b.isInfinite then
    a.isInfinite && b.isInfinite && (a.sign == b.sign)
  else decide (a.val = b.val)

/-- Truncation of a rational toward zero (the rounding used by Rust float to
integer `as` casts). -/
def ratTrunc (q : ℚ) : ℤ := if 0 ≤ q then ⌊q⌋ else ⌈q⌉

/-- The Rust cast `f as i32`: NaN goes to 0, otherwise the value is truncated
toward zero and saturated to the `i32` range. -/
def F64.toI32 (f : F64) : ℤ :=
  if f.isNan then 0
  else if f.isInfinite then (if f.sign then -(2 ^ 31) else 2 ^ 31 - 1)
  else max (-(2 ^ 31)) (min (2 ^ 31 - 1) (ratTrunc f.val))

/-- The Rust cast `i as f64`, for integers of magnitude below `2 ^ 52`
(every `i32` qualifies), where the cast is exact: the bit pattern encoding
the integer exactly. -/
def f64OfInt (i : ℤ) : F64 :=
  if i = 0 then ⟨false, 0, 0⟩
  else
    let m := i.natAbs
    let e := Nat.log2 m
    ⟨decide (i < 0), e + 1023, m * 2 ^ (52 - e) - 2 ^ 52⟩

/-! ## `Num` (from `values/num.rs`) -/

/-- `Num`: a numerical value unpacked from a `Value`, either an `i32` or an
`f64`.  The `i32` payload is modelled as `ℤ`; theorems restrict it to the
`i32` range where the claim does. -/
inductive Num where
  | int (i : ℤ)
  | float (f : F64)
deriving DecidableEq

/-- `Num::as_int`: get the underlying value as an int if it can be precisely
expressed as one.  For a float `f` the code computes `let int_candidate =
f as i32;` and returns it iff `f == int_candidate as f64`. -/
def Num.as_int : Num → Option ℤ
  | .int i => some i
  | .float f =>
    let int_candidate := f.toI32
    if f.ieeeEq (f64OfInt int_candidate) then some int_candidate else none

/-- The Rust cast `i as u64` (two's-complement reinterpretation). -/
def u64OfInt (i : ℤ) : ℕ := (i % (2 ^ 64 : ℤ)).toNat

/-- `Num::get_hash_64`: ints and floats with equal value hash equally; all
NaNs hash to 0; infinities to `u64::MAX`; zeros to `0.0f64.to_bits()`;
other floats to their bit pattern. -/
def Num.get_hash_64 (n : Num) : ℕ :=
  match n.as_int, n with
  | some i, _ => u64OfInt i
  | none, .float f =>
    if f.isNan then 0
    else if f.isInfinite then 2 ^ 64 - 1
    else if f.ieeeEq ⟨false, 0, 0⟩ then F64.toBits ⟨false, 0, 0⟩
    else f.toBits
  | none, .int i => u64OfInt i

/-! ## `Array` (from `values/types/array.rs`)

The fixed-capacity list backing `List` values.  The heap cell consists of a
current length, a fixed capacity, an active-iterator counter and a trailing
buffer of `capacity` element slots; `content()` is the initialized prefix of
length `len`.  Source mutations `assert!` on insufficient remaining
capacity, which aborts the process; an aborting call is modelled as `none`.
The buffer is a `List` of length `capacity`; slots past `len` hold junk
(`default` after creation, stale elements after `remove`/`clear`). -/

structure SArray (α : Type) where
  len : ℕ
  capacity : ℕ
  iter_count : ℕ
  buffer : List α
deriving DecidableEq

variable {α : Type}

/-- `Array::new(0, capacity)` as performed by `alloc_array`: zero length and
an uninitialized buffer of `capacity` slots. -/
def SArray.new [Inhabited α] (capacity : ℕ) : SArray α :=
  ⟨0, capacity, 0, List.replicate capacity default⟩

/-- `Array::content`: the slice of the first `len` buffer slots. -/
def SArray.content (a : SArray α) : List α := a.buffer.take a.len

/-- `Array::remaining_capacity`. -/
def SArray.remaining_capacity (a : SArray α) : ℕ := a.capacity - a.len

/-- `Array::push`: asserts `remaining_capacity() >= 1`, writes at offset
`len` and increments `len`. -/
def SArray.push (a : SArray α) (value : α) : Option (SArray α) :=
  if 1 ≤ a.remaining_capacity then
    some { a with len := a.len + 1, buffer := a.buffer.set a.len value }
  else none

/-- `Array::insert`: asserts `remaining_capacity() >= 1` and `index <= len`,
shifts `[index, len)` one slot right, writes at `index`, increments `len`. -/
def SArray.insert (a : SArray α) (index : ℕ) (value : α) : Option (SArray α) :=
  if 1 ≤ a.remaining_capacity ∧ index ≤ a.len then
    some { a with
      len := a.len + 1
      buffer := a.buffer.take index ++ value ::
        ((a.buffer.drop index).take (a.len - index)) ++ a.buffer.drop (a.len + 1) }
  else none

/-- `Array::double`: asserts `remaining_capacity() >= len`, copies the
content into the unused back half and doubles `len`. -/
def SArray.double (a : SArray α) : Option (SArray α) :=
  if a.len ≤ a.remaining_capacity then
    some { a with
      len := 2 * a.len
      buffer := a.buffer.take a.len ++ a.buffer.take a.len ++ a.buffer.drop (2 * a.len) }
  else none

/-- `Array::extend_from_slice`: asserts `remaining_capacity() >= slice.len()`,
copies the slice after the content and bumps `len` by the slice length. -/
def SArray.extend_from_slice (a : SArray α) (slice : List α) : Option (SArray α) :=
  if slice.length ≤ a.remaining_capacity then
    some { a with
      len := a.len + slice.length
      buffer := a.buffer.take a.len ++ slice ++ a.buffer.drop (a.len + slice.length) }
  else none

/-- `Array::extend`: pushes each item of the iterator in turn. -/
def SArray.extend (a : SArray α) (items : List α) : Option (SArray α) :=
  items.foldlM SArray.push a

/-- `Array::remove`: asserts `index < len`, shifts the tail left, decrements
`len` (slot `len - 1` keeps its stale element). -/
def SArray.remove (a : SArray α) (index : ℕ) : Option (SArray α) :=
  if index < a.len then
    some { a with
      len := a.len - 1
      buffer := a.buffer.take index ++
        ((a.buffer.drop (index + 1)).take (a.len - 1 - index)) ++ a.buffer.drop a.len }
  else none

/-- `Array::clear`: resets `len` to zero. -/
def SArray.clear (a : SArray α) : SArray α := { a with len := 0 }

/-- One mutation in a sequence applied to an array, as in the capacity
claim: pushes, inserts and extends. -/
inductive ArrayOp (α : Type) where
  | push (value : α)
  | insert (index : ℕ) (value : α)
  | extend (items : List α)
  | extendFromSlice (slice : List α)
deriving DecidableEq

/-- Number of elements an operation adds (its contribution to the total the
claim bounds by the capacity). -/
def ArrayOp.count : ArrayOp α → ℕ
  | .push _ => 1
  | .insert _ _ => 1
  | .extend items => items.length
  | .extendFromSlice slice => slice.length

/-- Apply one operation. -/
def ArrayOp.apply (a : SArray α) : ArrayOp α → Option (SArray α)
  | .push v => a.push v
  | .insert i v => a.insert i v
  | .extend items => a.extend items
  | .extendFromSlice slice => a.extend_from_slice slice

/-- Run a sequence of operations, aborting (`none`) as the source aborts. -/
def runArrayOps (a : SArray α) (ops : List (ArrayOp α)) : Option (SArray α) :=
  ops.foldlM ArrayOp.apply a

/-! ## Dynamic dispatch and `downcast_ref` (from `values/layout/avalue.rs`)

A dispatch handle erases the concrete payload type; `StarlarkValueDyn for
AValueImpl<Mode, T>` records `T::static_type_id()` as
`static_type_of_value`, and `dyn AValueDyn::downcast_ref::<T>` compares that
recorded identity with `T::static_type_id()`, returning the payload
reference on equality and `None` otherwise. -/

/-- Model of `std::any::TypeId` for the closed set of payload types used
here: each concrete payload type has a distinct identity. -/
inductive TypeId where
  | noneType
  | boolType
  | intType
  | floatType
  | strType
  | tupleType
  | listType
  | arrayType
deriving DecidableEq

/-- A concrete payload stored behind a dispatch handle. -/
inductive Payload where
  | ofNone
  | ofBool (b : Bool)
  | ofInt (i : ℤ)
  | ofFloat (f : F64)
  | ofStr (s : String)
deriving DecidableEq

/-- `T::static_type_id()` of the payload's concrete type. -/
def Payload.typeId : Payload → TypeId
  | .ofNone => .noneType
  | .ofBool _ => .boolType
  | .ofInt _ => .intType
  | .ofFloat _ => .floatType
  | .ofStr _ => .strType

/-- A type-erased dispatch handle (`&dyn AValueDyn`): the payload together
with the type identity its vtable reports. -/
structure AValueDynHandle where
  payload : Payload

/-- `StarlarkValueDyn::static_type_of_value` as implemented by
`AValueImpl<Mode, T>`: the payload type's id. -/
def AValueDynHandle.static_type_of_value (h : AValueDynHandle) : TypeId :=
  h.payload.typeId

/-- `dyn AValueDyn::downcast_ref::<T>`: the payload iff the recorded type
identity equals `T::static_type_id()`. -/
def AValueDynHandle.downcast_ref (h : AValueDynHandle) (t : TypeId) : Option Payload :=
  if h.static_type_of_value = t then some h.payload else none

/-! ## Module slots (from `environment/slots.rs`)

`MutableSlots` is a growable vector of `Value`s in which "unassigned" is a
distinguished sentinel value, not absence; `get_slot` indexes the vector
(panicking on an out-of-range index, modelled by the outer `none`) and maps
the sentinel to `None` (the inner `none`). -/

/-- A value stored in a module slot: the unassigned sentinel
(`Value::new_unassigned`) or an ordinary value. -/
inductive SlotValue where
  | unassigned
  | val (n : ℕ)
deriving DecidableEq

/-- `Value::is_unassigned`. -/
def SlotValue.is_unassigned : SlotValue → Bool
  | .unassigned => true
  | .val _ => false

/-- A frozen slot value: the frozen counterpart of `SlotValue`. -/
inductive FrozenSlotValue where
  | unassigned
  | val (n : ℕ)
deriving DecidableEq

/-- `FrozenValue::is_unassigned`. -/
def FrozenSlotValue.is_unassigned : FrozenSlotValue → Bool
  | .unassigned => true
  | .val _ => false

/-- Modelled from the spec: `Value::freeze` on an individual slot value
(the `x.freeze(freezer)` call in `MutableSlots::freeze`; `Value::freeze`
itself is outside the provided sources).  Per the spec, freezing a slot
table converts it 1:1, each assigned value to its frozen image and the
unassigned sentinel to the frozen unassigned sentinel. -/
def SlotValue.freezeValue : SlotValue → FrozenSlotValue
  | .unassigned => .unassigned
  | .val n => .val n

/-- `MutableSlots`: indexed slots of a module. -/
structure MutableSlots where
  slots : List SlotValue
deriving DecidableEq

/-- `FrozenSlots`: indexed slots of a frozen module. -/
structure FrozenSlots where
  slots : List FrozenSlotValue
deriving DecidableEq

/-- `MutableSlots::new`. -/
def MutableSlots.new : MutableSlots := ⟨[]⟩

/-- `MutableSlots::get_slot`: `self.0.borrow()[slot.0]` panics when the
index is out of range (outer `none`); an in-range unassigned sentinel is
reported as the inner `none`. -/
def MutableSlots.get_slot (m : MutableSlots) (slot : ℕ) : Option (Option SlotValue) :=
  match m.slots[slot]? with
  | none => none
  | some v => some (if v.is_unassigned then none else some v)

/-- `MutableSlots::set_slot`: asserts the stored value is not the
unassigned sentinel, and writes through `self.0.borrow_mut()[slot.0]`,
which panics when the index is out of range. -/
def MutableSlots.set_slot (m : MutableSlots) (slot : ℕ) (value : SlotValue) :
    Option MutableSlots :=
  if value.is_unassigned then none
  else if slot < m.slots.length then some ⟨m.slots.set slot value⟩
  else none

/-- `MutableSlots::ensure_slots`: a no-op when the table already has at
least `count` slots, otherwise grow it by pushing unassigned sentinels. -/
def MutableSlots.ensure_slots (m : MutableSlots) (count : ℕ) : MutableSlots :=
  if count ≤ m.slots.length then m
  else ⟨m.slots ++ List.replicate (count - m.slots.length) .unassigned⟩

/-- `MutableSlots::freeze`: freeze every slot positionally. -/
def MutableSlots.freeze (m : MutableSlots) : FrozenSlots :=
  ⟨m.slots.map SlotValue.freezeValue⟩

/-- `FrozenSlots::get_slot`: same shape as the mutable accessor. -/
def FrozenSlots.get_slot (m : FrozenSlots) (slot : ℕ) : Option (Option FrozenSlotValue) :=
  match m.slots[slot]? with
  | none => none
  | some v => some (if v.is_unassigned then none else some v)

/-! ## Default `write_hash` (from `values/traits.rs`)

The default `StarlarkValue::write_hash` succeeds, writing nothing into the
hasher, exactly when `get_type()` is the function type string, and
otherwise returns `ControlError::NotHashableValue` carrying the type name.
The hasher is kept abstract (any state type): a call that writes nothing is
the identity on it. -/

/-- `FUNCTION_TYPE` (defined in `values/function.rs`, outside the provided
sources; per the spec it is the function type string). -/
def FUNCTION_TYPE : String := "function"

/-- `ControlError` cases reachable from the default `write_hash`. -/
inductive ControlError where
  | notHashableValue (typeName : String)
deriving DecidableEq

/-- The default `StarlarkValue::write_hash` body, abstracted over the
receiver by its `get_type()` string and over the hasher state. -/
def defaultWriteHash {H : Type} (getType : String) (hasher : H) : Except ControlError H :=
  if getType = FUNCTION_TYPE then .ok hasher
  else .error (.notHashableValue getType)

/-! ## The freeze and trace engines (from `values/layout/avalue.rs`)

The mutable arena is a list of heap cells addressed by index; a `Value` is
an immediate, a pointer into that arena, or the shared static empty array.
Freezing produces cells in a separate frozen arena; `reserve` appends an
unfilled cell (`none`) and `fill` completes it, so a destination address is
stable from reservation on.  `overwrite_with_forward` turns an old cell
into a forwarding record.  The per-type `heap_freeze`/`heap_copy` bodies
are translated from `avalue.rs`; the dispatcher around them (immediates are
returned unchanged, an already-forwarded header resolves to its target) is
the behaviour the spec gives for the `Freezer`/`Tracer` entry points, whose
bodies live outside the provided sources.  `List` stores a pointer to its
backing `Array` cell; `ListGen<List>::heap_freeze` reads the element values
through that pointer and never freezes the array itself.  Recursion is
fuel-indexed; exhausted fuel is reported as an error distinct from the
freeze-hook failure. -/

/-- A mutable-phase `Value`: an inline immediate, a pointer into the
mutable arena, or the process-wide static empty array
(`VALUE_EMPTY_ARRAY`). -/
inductive MValue where
  | imm (n : ℤ)
  | ref (addr : ℕ)
  | staticEmptyArray
deriving DecidableEq

/-- A `FrozenValue`: an immediate, a pointer into the frozen arena, or the
process-wide static empty frozen list (`VALUE_EMPTY_FROZEN_LIST`). -/
inductive FValue where
  | imm (n : ℤ)
  | ref (addr : ℕ)
  | emptyFrozenList
deriving DecidableEq

/-- A cell of the mutable arena: a header plus payload.  `tuple`, `list`,
`array`, `simple` and `complex` are live payloads of the corresponding
mode; `complex` carries a flag telling whether its author-level freeze hook
declines (returns an error).  `forwardF`/`forwardT` are forwarding records
written by the freeze pass and the trace pass respectively. -/
inductive MCell where
  | tuple (content : List MValue)
  | list (contentArr : MValue)
  | array (content : List MValue) (capacity : ℕ)
  | simple (payload : ℕ)
  | complex (fields : List MValue) (freezeFails : Bool)
  | forwardF (fv : FValue)
  | forwardT (v : MValue)
deriving DecidableEq

/-- A cell of the frozen arena.  A frozen `complex` payload is its frozen
counterpart type stored in `Simple` mode. -/
inductive FCell where
  | tuple (content : List FValue)
  | list (content : List FValue)
  | simple (payload : ℕ)
  | complexFrozen (fields : List FValue)
deriving DecidableEq

/-- Failures of a freeze or copy pass.  `unfreezable` is an author-level
freeze-hook error; `invariantViolation` models paths that panic in the
source (freezing an array, a dangling pointer, a trace forward met during
freeze); `outOfFuel` is exhaustion of the recursion fuel of the model. -/
inductive FreezeError where
  | unfreezable
  | invariantViolation
  | outOfFuel
deriving DecidableEq

/-- State of a freeze pass: the mutable arena being consumed and the frozen
arena being produced (`none` entries are reserved, not yet filled). -/
structure FreezeState where
  heap : List MCell
  arena : List (Option FCell)
deriving DecidableEq

/-- Read the element values of a list's backing array: the static empty
array has no elements, a pointer must lead to an array cell. -/
def readArrayContent (heap : List MCell) : MValue → Option (List MValue)
  | .staticEmptyArray => some []
  | .ref b =>
    match heap[b]? with
    | some (.array content _) => some content
    | _ => none
  | .imm _ => none

mutual

/-- `Freezer::freeze` with the per-type `heap_freeze` bodies inlined.
An immediate is returned reinterpreted as frozen; a forwarded header
resolves to the forwarding target; otherwise the live cell reserves its
frozen destination, overwrites itself with the forwarding record, and only
then recurses into sub-values. -/
def freezeValue : ℕ → MValue → FreezeState → Except FreezeError FValue × FreezeState
  | 0, _, st => (.error .outOfFuel, st)
  | _ + 1, .imm n, st => (.ok (.imm n), st)
  | _ + 1, .staticEmptyArray, st => (.error .invariantViolation, st)
  | fuel + 1, .ref a, st =>
    match st.heap[a]? with
    | none => (.error .invariantViolation, st)
    | some (.forwardF fv) => (.ok fv, st)
    | some (.forwardT _) => (.error .invariantViolation, st)
    | some (.array _ _) => (.error .invariantViolation, st)
    | some (.tuple content) =>
      let newAddr := st.arena.length
      let st1 : FreezeState :=
        ⟨st.heap.set a (.forwardF (.ref newAddr)), st.arena ++ [none]⟩
      match freezeMany fuel content st1 with
      | (.error e, st2) => (.error e, st2)
      | (.ok fvs, st2) =>
        (.ok (.ref newAddr), ⟨st2.heap, st2.arena.set newAddr (some (.tuple fvs))⟩)
    | some (.list contentArr) =>
      match readArrayContent st.heap contentArr with
      | none => (.error .invariantViolation, st)
      | some content =>
        if content.isEmpty then
          (.ok .emptyFrozenList, ⟨st.heap.set a (.forwardF .emptyFrozenList), st.arena⟩)
        else
          let newAddr := st.arena.length
          let st1 : FreezeState :=
            ⟨st.heap.set a (.forwardF (.ref newAddr)), st.arena ++ [none]⟩
          match freezeMany fuel content st1 with
          | (.error e, st2) => (.error e, st2)
          | (.ok fvs, st2) =>
            (.ok (.ref newAddr), ⟨st2.heap, st2.arena.set newAddr (some (.list fvs))⟩)
    | some (.simple payload) =>
      let newAddr := st.arena.length
      (.ok (.ref newAddr),
        ⟨st.heap.set a (.forwardF (.ref newAddr)),
          (st.arena ++ [none]).set newAddr (some (.simple payload))⟩)
    | some (.complex fields freezeFails) =>
      let newAddr := st.arena.length
      let st1 : FreezeState :=
        ⟨st.heap.set a (.forwardF (.ref newAddr)), st.arena ++ [none]⟩
      if freezeFails then (.error .unfreezable, st1)
      else
        match freezeMany fuel fields st1 with
        | (.error e, st2) => (.error e, st2)
        | (.ok fvs, st2) =>
          (.ok (.ref newAddr), ⟨st2.heap, st2.arena.set newAddr (some (.complexFrozen fvs))⟩)

/-- Freeze a list of sub-values left to right, threading the state and
propagating the first error (the `?` in the source loops). -/
def freezeMany : ℕ → List MValue → FreezeState → Except FreezeError (List FValue) × FreezeState
  | 0, _, st => (.error .outOfFuel, st)
  | _ + 1, [], st => (.ok [], st)
  | fuel + 1, v :: vs, st =>
    match freezeValue fuel v st with
    | (.error e, st1) => (.error e, st1)
    | (.ok fv, st1) =>
      match freezeMany fuel vs st1 with
      | (.error e, st2) => (.error e, st2)
      | (.ok fvs, st2) => (.ok (fv :: fvs), st2)

end

/-- State of a trace (copy) pass: the source arena being consumed and the
destination arena being produced. -/
structure CopyState where
  heap : List MCell
  dest : List (Option MCell)
deriving DecidableEq

mutual

/-- `Tracer::trace` with the per-type `heap_copy` bodies inlined: the same
forwarding discipline as the freeze pass, staying within the mutable
representation.  A non-empty array is relocated with its extra capacity
dropped; an array that is empty (but had capacity) is replaced by the
static empty array without writing a forwarding record. -/
def copyValue : ℕ → MValue → CopyState → Except FreezeError MValue × CopyState
  | 0, _, st => (.error .outOfFuel, st)
  | _ + 1, .imm n, st => (.ok (.imm n), st)
  | _ + 1, .staticEmptyArray, st => (.ok .staticEmptyArray, st)
  | fuel + 1, .ref a, st =>
    match st.heap[a]? with
    | none => (.error .invariantViolation, st)
    | some (.forwardT v) => (.ok v, st)
    | some (.forwardF _) => (.error .invariantViolation, st)
    | some (.tuple content) =>
      let newAddr := st.dest.length
      let st1 : CopyState :=
        ⟨st.heap.set a (.forwardT (.ref newAddr)), st.dest ++ [none]⟩
      match copyMany fuel content st1 with
      | (.error e, st2) => (.error e, st2)
      | (.ok vs, st2) =>
        (.ok (.ref newAddr), ⟨st2.heap, st2.dest.set newAddr (some (.tuple vs))⟩)
    | some (.list contentArr) =>
      let newAddr := st.dest.length
      let st1 : CopyState :=
        ⟨st.heap.set a (.forwardT (.ref newAddr)), st.dest ++ [none]⟩
      match copyValue fuel contentArr st1 with
      | (.error e, st2) => (.error e, st2)
      | (.ok arr, st2) =>
        (.ok (.ref newAddr), ⟨st2.heap, st2.dest.set newAddr (some (.list arr))⟩)
    | some (.array content _capacity) =>
      if content.isEmpty then (.ok .staticEmptyArray, st)
      else
        let newAddr := st.dest.length
        let st1 : CopyState :=
          ⟨st.heap.set a (.forwardT (.ref newAddr)), st.dest ++ [none]⟩
        match copyMany fuel content st1 with
        | (.error e, st2) => (.error e, st2)
        | (.ok vs, st2) =>
          (.ok (.ref newAddr),
            ⟨st2.heap, st2.dest.set newAddr (some (.array vs vs.length))⟩)
    | some (.simple payload) =>
      let newAddr := st.dest.length
      (.ok (.ref newAddr),
        ⟨st.heap.set a (.forwardT (.ref newAddr)),
          (st.dest ++ [none]).set newAddr (some (.simple payload))⟩)
    | some (.complex fields freezeFails) =>
      let newAddr := st.dest.length
      let st1 : CopyState :=
        ⟨st.heap.set a (.forwardT (.ref newAddr)), st.dest ++ [none]⟩
      match copyMany fuel fields st1 with
      | (.error e, st2) => (.error e, st2)
      | (.ok vs, st2) =>
        (.ok (.ref newAddr),
          ⟨st2.heap, st2.dest.set newAddr (some (.complex vs freezeFails))⟩)

/-- Trace a list of sub-values left to right. -/
def copyMany : ℕ → List MValue → CopyState → Except FreezeError (List MValue) × CopyState
  | 0, _, st => (.error .outOfFuel, st)
  | _ + 1, [], st => (.ok [], st)
  | fuel + 1, v :: vs, st =>
    match copyValue fuel v st with
    | (.error e, st1) => (.error e, st1)
    | (.ok v1, st1) =>
      match copyMany fuel vs st1 with
      | (.error e, st2) => (.error e, st2)
      | (.ok vs1, st2) => (.ok (v1 :: vs1), st2)

end

/-! ## Concrete scenario heaps -/

/-- The cyclic-graph scenario of the spec (and of the `tuple_cycle_freeze`
test): a list `L` (cell 0) backed by an array (cell 1) holding the tuple
`T = (L,)` (cell 2), so the graph is cyclic. -/
def cyclicHeap : List MCell := [.list (.ref 1), .array [.ref 2] 2, .tuple [.ref 0]]

/-- A failure scenario: a list (cell 0, backed by the array cell 1) whose
elements are a simple value (cell 2) and a complex value whose freeze hook
declines (cell 3). -/
def failHeap : List MCell := [.list (.ref 1), .array [.ref 2, .ref 3] 2, .simple 7, .complex [] true]

/-- The cells on which `heap_freeze` writes a forwarding record before any
recursion: tuples, simple and complex payloads unconditionally, and list
cells whose backing-array pointer is readable.  Arrays are never frozen
(`heap_freeze` on an array panics) and forwarded cells are never live. -/
def MCell.freezeForwards (heap : List MCell) : MCell → Prop
  | .tuple _ => True
  | .simple _ => True
  | .complex _ _ => True
  | .list p => ∃ content, readArrayContent heap p = some content
  | .array _ _ => False
  | .forwardF _ => False
  | .forwardT _ => False

/-- The cells on which `heap_copy` writes a forwarding record before any
recursion: every live cell except an empty array, which is replaced by the
static empty array without forwarding (it has no sub-values). -/
def MCell.copyForwards : MCell → Prop
  | .tuple _ => True
  | .simple _ => True
  | .complex _ _ => True
  | .list _ => True
  | .array content _ => content ≠ []
  | .forwardF _ => False
  | .forwardT _ => False

end Starlark

namespace Starlark

/-! ## Theorems -/

/-- Claim C6: `downcast_ref` is a type-identity test: a handle holding a
payload of concrete type `A` downcasts to any distinct type `B` as `none`,
and to `A` itself as `some` reference to the payload. -/
theorem downcast_ref_type_identity (h : AValueDynHandle) (b : TypeId)
    (hne : h.payload.typeId ≠ b) :
    h.downcast_ref b = none ∧ h.downcast_ref h.payload.typeId = some h.payload := by
  constructor
  · simp [AValueDynHandle.downcast_ref, AValueDynHandle.static_type_of_value, hne]
  · simp [AValueDynHandle.downcast_ref, AValueDynHandle.static_type_of_value]

theorem downcast_ref_type_identity_witness :
    AValueDynHandle.downcast_ref ⟨.ofInt 3⟩ .strType = none ∧
      AValueDynHandle.downcast_ref ⟨.ofInt 3⟩ (Payload.ofInt 3).typeId = some (.ofInt 3) :=
  downcast_ref_type_identity ⟨.ofInt 3⟩ .strType (by decide)

/-- Claim C8: the default `write_hash` succeeds exactly on the function
type string: it leaves the hasher untouched (so any two function-typed
values receive the identical, stable hash), and on every other type string
it returns a `NotHashableValue` error naming that type. -/
theorem default_write_hash_function_type {H : Type} (t u : String) (hasher : H) :
    (t = FUNCTION_TYPE → defaultWriteHash t hasher = .ok hasher)
  ∧ (t ≠ FUNCTION_TYPE →
      defaultWriteHash t hasher = .error (.notHashableValue t))
  ∧ (t = FUNCTION_TYPE → u = FUNCTION_TYPE →
      defaultWriteHash t hasher = defaultWriteHash u hasher) := by
  refine ⟨fun h => ?_, fun h => ?_, fun h1 h2 => ?_⟩
  · simp [defaultWriteHash, h]
  · simp [defaultWriteHash, h]
  · simp [defaultWriteHash, h1, h2]

theorem default_write_hash_function_type_witness :
    defaultWriteHash FUNCTION_TYPE (0 : ℕ) = .ok 0 ∧
      defaultWriteHash "list" (0 : ℕ) = .error (.notHashableValue "list") :=
  ⟨(default_write_hash_function_type FUNCTION_TYPE FUNCTION_TYPE (0 : ℕ)).1 rfl,
    (default_write_hash_function_type "list" FUNCTION_TYPE (0 : ℕ)).2.1 (by decide)⟩

/-- Claim C10: indexing a slot table (mutable or frozen) at an index not
below its length panics (modelled by the outer `none`) instead of returning
the unassigned sentinel or any value; `set_slot` never changes the table's
length, and `ensure_slots` resizes it to exactly the maximum of the old
length and the requested count. -/
theorem slots_get_out_of_bounds_panics (m : MutableSlots) (f : FrozenSlots) (i : ℕ)
    (hm : m.slots.length ≤ i) (hf : f.slots.length ≤ i) :
    m.get_slot i = none
  ∧ f.get_slot i = none
  ∧ (∀ j v m2, m.set_slot j v = some m2 → m2.slots.length = m.slots.length)
  ∧ (∀ count, (m.ensure_slots count).slots.length = max m.slots.length count) := by
  refine ⟨?_, ?_, ?_, ?_⟩
  · simp [MutableSlots.get_slot, List.getElem?_eq_none hm]
  · simp [FrozenSlots.get_slot, List.getElem?_eq_none hf]
  · intro j v m2 h
    unfold MutableSlots.set_slot at h
    split at h
    · exact absurd h (by simp)
    · split at h
      · cases h with
        | refl => simp
      · exact absurd h (by simp)
  · intro count
    unfold MutableSlots.ensure_slots
    split <;> simp <;> omega

theorem slots_get_out_of_bounds_panics_witness :
    MutableSlots.get_slot ⟨[.val 4]⟩ 1 = none ∧ FrozenSlots.get_slot ⟨[]⟩ 0 = none :=
  ⟨(slots_get_out_of_bounds_panics ⟨[.val 4]⟩ ⟨[]⟩ 1 (by decide) (by decide)).1,
    (slots_get_out_of_bounds_panics ⟨[.val 4]⟩ ⟨[]⟩ 1 (by decide) (by decide)).2.1⟩

/-- Claim C7: the module-slots scenario: after `ensure_slots(3)` slot 1
reads as unassigned; after `set(1, v)` it reads back as `v`; a subsequent
`ensure_slots(2)` leaves the table unchanged; and freezing yields the
table of the same indices with slot 1 holding the frozen image of `v` and
slots 0 and 2 unassigned. -/
theorem module_slots_scenario (v : SlotValue) (hv : v.is_unassigned = false) :
    ((MutableSlots.new.ensure_slots 3).get_slot 1 = some none)
  ∧ ((MutableSlots.new.ensure_slots 3).set_slot 1 v = some ⟨[.unassigned, v, .unassigned]⟩)
  ∧ (MutableSlots.get_slot ⟨[.unassigned, v, .unassigned]⟩ 1 = some (some v))
  ∧ (MutableSlots.ensure_slots ⟨[.unassigned, v, .unassigned]⟩ 2 = ⟨[.unassigned, v, .unassigned]⟩)
  ∧ (MutableSlots.freeze ⟨[.unassigned, v, .unassigned]⟩ =
      ⟨[.unassigned, v.freezeValue, .unassigned]⟩)
  ∧ (FrozenSlots.get_slot ⟨[.unassigned, v.freezeValue, .unassigned]⟩ 0 = some none)
  ∧ (FrozenSlots.get_slot ⟨[.unassigned, v.freezeValue, .unassigned]⟩ 1 =
      some (some v.freezeValue))
  ∧ (FrozenSlots.get_slot ⟨[.unassigned, v.freezeValue, .unassigned]⟩ 2 = some none) := by
  cases v with
  | unassigned => simp [SlotValue.is_unassigned] at hv
  | val n =>
    refine ⟨?_, ?_, ?_, ?_, ?_, ?_, ?_, ?_⟩ <;>
      simp [MutableSlots.new, MutableSlots.ensure_slots, MutableSlots.get_slot,
        MutableSlots.set_slot, MutableSlots.freeze, FrozenSlots.get_slot,
        SlotValue.is_unassigned, SlotValue.freezeValue, FrozenSlotValue.is_unassigned,
        List.replicate]

theorem module_slots_scenario_witness :
    ((MutableSlots.new.ensure_slots 3).get_slot 1 = some none)
  ∧ ((MutableSlots.new.ensure_slots 3).set_slot 1 (.val 9) =
      some ⟨[.unassigned, .val 9, .unassigned]⟩) :=
  ⟨(module_slots_scenario (.val 9) rfl).1, (module_slots_scenario (.val 9) rfl).2.1⟩

/-- Claim C9: `ListGen<List>::heap_freeze` on a list whose content is
empty forwards the old header to the shared static
`VALUE_EMPTY_FROZEN_LIST` and returns that static frozen value without
reserving anything in the frozen arena, for every such list. -/
theorem freeze_empty_list_shared_static (st : FreezeState) (a fuel : ℕ) (p : MValue)
    (hcell : st.heap[a]? = some (.list p))
    (hempty : readArrayContent st.heap p = some []) :
    freezeValue (fuel + 1) (.ref a) st =
      (.ok .emptyFrozenList, ⟨st.heap.set a (.forwardF .emptyFrozenList), st.arena⟩) := by
  simp [freezeValue, hcell, hempty]

theorem freeze_empty_list_shared_static_witness :
    freezeValue 1 (.ref 0) ⟨[.list .staticEmptyArray], []⟩ =
      (.ok .emptyFrozenList, ⟨[.forwardF .emptyFrozenList], []⟩) :=
  freeze_empty_list_shared_static ⟨[.list .staticEmptyArray], []⟩ 0 0 .staticEmptyArray rfl rfl

/-- Claim C2, counterexample: freezing `failHeap` fails with the
freeze-hook error, yet the mutable heap does not stay usable: the list
header (cell 0), the already-frozen simple sub-value (cell 2) and the
declining complex value (cell 3) are left overwritten with forwarding
records, contrary to the claim that no value on the mutable heap is left in
a forwarded/unusable state. -/
theorem freeze_failure_leaves_forwarded_counterexample :
    (freezeValue 10 (.ref 0) ⟨failHeap, []⟩).1 = .error .unfreezable
  ∧ (freezeValue 10 (.ref 0) ⟨failHeap, []⟩).2.heap[0]? = some (.forwardF (.ref 0))
  ∧ (freezeValue 10 (.ref 0) ⟨failHeap, []⟩).2.heap[2]? = some (.forwardF (.ref 1))
  ∧ (freezeValue 10 (.ref 0) ⟨failHeap, []⟩).2.heap[3]? = some (.forwardF (.ref 2)) :=
  ⟨rfl, rfl, rfl, rfl⟩

/-- Invariant preservation for `Array::push`. -/
theorem SArray.push_some_inv {α : Type} {a a2 : SArray α} {v : α}
    (h : a.push v = some a2)
    (hlen : a.len ≤ a.capacity) (hbuf : a.buffer.length = a.capacity) :
    a2.len ≤ a2.capacity ∧ a2.buffer.length = a2.capacity ∧ a2.capacity = a.capacity := by
  unfold SArray.push at h
  split at h
  · cases h
    refine ⟨?_, ?_, rfl⟩ <;> (simp_all [SArray.remaining_capacity]; try omega)
  · exact absurd h (by simp)

/-- Invariant preservation for `Array::insert`. -/
theorem SArray.insert_some_inv {α : Type} {a a2 : SArray α} {i : ℕ} {v : α}
    (h : a.insert i v = some a2)
    (hlen : a.len ≤ a.capacity) (hbuf : a.buffer.length = a.capacity) :
    a2.len ≤ a2.capacity ∧ a2.buffer.length = a2.capacity ∧ a2.capacity = a.capacity := by
  unfold SArray.insert at h
  split at h
  · cases h
    refine ⟨?_, ?_, rfl⟩ <;>
      simp_all [SArray.remaining_capacity, List.length_append, List.length_take,
        List.length_drop] <;> omega
  · exact absurd h (by simp)

/-- Invariant preservation for `Array::double`. -/
theorem SArray.double_some_inv {α : Type} {a a2 : SArray α}
    (h : a.double = some a2)
    (hlen : a.len ≤ a.capacity) (hbuf : a.buffer.length = a.capacity) :
    a2.len ≤ a2.capacity ∧ a2.buffer.length = a2.capacity ∧ a2.capacity = a.capacity := by
  unfold SArray.double at h
  split at h
  · cases h
    refine ⟨?_, ?_, rfl⟩ <;>
      simp_all [SArray.remaining_capacity, List.length_append, List.length_take,
        List.length_drop] <;> omega
  · exact absurd h (by simp)

/-- Invariant preservation for `Array::extend_from_slice`. -/
theorem SArray.extend_from_slice_some_inv {α : Type} {a a2 : SArray α} {s : List α}
    (h : a.extend_from_slice s = some a2)
    (hlen : a.len ≤ a.capacity) (hbuf : a.buffer.length = a.capacity) :
    a2.len ≤ a2.capacity ∧ a2.buffer.length = a2.capacity ∧ a2.capacity = a.capacity := by
  unfold SArray.extend_from_slice at h
  split at h
  · cases h
    refine ⟨?_, ?_, rfl⟩ <;>
      simp_all [SArray.remaining_capacity, List.length_append, List.length_take,
        List.length_drop] <;> omega
  · exact absurd h (by simp)

/-- Invariant preservation for `Array::extend`. -/
theorem SArray.extend_some_inv {α : Type} {items : List α} :
    ∀ {a a2 : SArray α}, a.extend items = some a2 →
      a.len ≤ a.capacity → a.buffer.length = a.capacity →
      a2.len ≤ a2.capacity ∧ a2.buffer.length = a2.capacity ∧ a2.capacity = a.capacity := by
  induction items with
  | nil =>
    intro a a2 h hlen hbuf
    cases h
    exact ⟨hlen, hbuf, rfl⟩
  | cons v vs ih =>
    intro a a2 h hlen hbuf
    rw [SArray.extend, List.foldlM_cons] at h
    cases hp : a.push v with
    | none => rw [hp] at h; exact absurd h (by simp)
    | some a1 =>
      rw [hp] at h
      have h1 := SArray.push_some_inv hp hlen hbuf
      have h2 := @ih a1 a2 h h1.1 h1.2.1
      exact ⟨h2.1, h2.2.1, h2.2.2.trans h1.2.2⟩

/-- Invariant preservation for a single `ArrayOp`. -/
theorem ArrayOp.apply_some_inv {α : Type} {op : ArrayOp α} {a a2 : SArray α}
    (h : op.apply a = some a2)
    (hlen : a.len ≤ a.capacity) (hbuf : a.buffer.length = a.capacity) :
    a2.len ≤ a2.capacity ∧ a2.buffer.length = a2.capacity ∧ a2.capacity = a.capacity := by
  cases op with
  | push v => exact SArray.push_some_inv h hlen hbuf
  | insert i v => exact SArray.insert_some_inv h hlen hbuf
  | extend items => exact SArray.extend_some_inv h hlen hbuf
  | extendFromSlice s => exact SArray.extend_from_slice_some_inv h hlen hbuf

/-- Invariant preservation along a whole operation sequence. -/
theorem runArrayOps_some_inv {α : Type} {ops : List (ArrayOp α)} :
    ∀ {a a2 : SArray α}, runArrayOps a ops = some a2 →
      a.len ≤ a.capacity → a.buffer.length = a.capacity →
      a2.len ≤ a2.capacity ∧ a2.buffer.length = a2.capacity := by
  induction ops with
  | nil =>
    intro a a2 h hlen hbuf
    cases h
    exact ⟨hlen, hbuf⟩
  | cons op ops ih =>
    intro a a2 h hlen hbuf
    rw [runArrayOps, List.foldlM_cons] at h
    cases hp : op.apply a with
    | none => rw [hp] at h; exact absurd h (by simp)
    | some a1 =>
      rw [hp] at h
      have h1 := ArrayOp.apply_some_inv hp hlen hbuf
      exact @ih a1 a2 h h1.1 h1.2.1

/-- Claim C4: for an `Array` created with capacity `c` and any sequence of
push/insert/extend operations whose element total does not exceed `c`,
every state a successful run reaches (in particular the state after each
operation: every prefix of such a sequence is again such a sequence)
satisfies `len() <= capacity()`, and `content()` is a slice of exactly
`len()` elements. -/
theorem array_capacity_invariant {α : Type} [Inhabited α] (c : ℕ) (ops : List (ArrayOp α))
    (a : SArray α)
    (_hcount : (ops.map ArrayOp.count).sum ≤ c)
    (hrun : runArrayOps (SArray.new c) ops = some a) :
    a.len ≤ a.capacity ∧ a.content.length = a.len := by
  have h0 : (SArray.new c : SArray α).len ≤ (SArray.new c : SArray α).capacity := by
    simp [SArray.new]
  have h1 : (SArray.new c : SArray α).buffer.length = (SArray.new c : SArray α).capacity := by
    simp [SArray.new]
  have h := runArrayOps_some_inv hrun h0 h1
  refine ⟨h.1, ?_⟩
  simp only [SArray.content, List.length_take]
  omega

theorem array_capacity_invariant_witness :
    ((([ArrayOp.push 1, ArrayOp.insert 0 2, ArrayOp.extend [3]] :
        List (ArrayOp ℕ)).map ArrayOp.count).sum ≤ 3)
  ∧ runArrayOps (SArray.new 3) [ArrayOp.push 1, ArrayOp.insert 0 2, ArrayOp.extend [3]] =
      some ⟨3, 3, 0, [2, 1, 3]⟩
  ∧ (3 ≤ (3 : ℕ) ∧ (SArray.content ⟨3, 3, 0, [2, 1, 3]⟩).length = 3) :=
  ⟨by decide, by decide,
    array_capacity_invariant 3 [ArrayOp.push 1, ArrayOp.insert 0 2, ArrayOp.extend [3]]
      ⟨3, 3, 0, [2, 1, 3]⟩ (by decide) (by decide)⟩

/-- Claim C5: each capacity-violating `Array` mutation aborts (push and
insert when fewer than one slot remains, `extend_from_slice` when fewer
than the slice length remain, `double` when fewer than `len` remain), and
no successful mutation ever moves the write frontier past the fixed
capacity: the capacity and the buffer extent are unchanged and the new
length stays within them. -/
theorem array_capacity_violations_abort {α : Type} (a : SArray α) (v : α) (i : ℕ)
    (s : List α)
    (hlen : a.len ≤ a.capacity) (hbuf : a.buffer.length = a.capacity) :
    (a.remaining_capacity < 1 → a.push v = none ∧ a.insert i v = none)
  ∧ (a.remaining_capacity < s.length → a.extend_from_slice s = none)
  ∧ (a.remaining_capacity < a.len → a.double = none)
  ∧ (∀ a2, a.push v = some a2 ∨ a.insert i v = some a2 ∨
        a.extend_from_slice s = some a2 ∨ a.double = some a2 →
      a2.capacity = a.capacity ∧ a2.buffer.length = a.capacity ∧ a2.len ≤ a.capacity) := by
  refine ⟨fun h => ⟨?_, ?_⟩, fun h => ?_, fun h => ?_, fun a2 h => ?_⟩
  · simp [SArray.push]; omega
  · simp [SArray.insert]; omega
  · simp [SArray.extend_from_slice]; omega
  · simp [SArray.double]; omega
  · rcases h with h | h | h | h
    · have := SArray.push_some_inv h hlen hbuf
      exact ⟨this.2.2, this.2.2 ▸ this.2.1, this.2.2 ▸ this.1⟩
    · have := SArray.insert_some_inv h hlen hbuf
      exact ⟨this.2.2, this.2.2 ▸ this.2.1, this.2.2 ▸ this.1⟩
    · have := SArray.extend_from_slice_some_inv h hlen hbuf
      exact ⟨this.2.2, this.2.2 ▸ this.2.1, this.2.2 ▸ this.1⟩
    · have := SArray.double_some_inv h hlen hbuf
      exact ⟨this.2.2, this.2.2 ▸ this.2.1, this.2.2 ▸ this.1⟩

theorem array_capacity_violations_abort_witness :
    SArray.push (⟨2, 2, 0, [5, 6]⟩ : SArray ℕ) 0 = none
  ∧ SArray.insert (⟨2, 2, 0, [5, 6]⟩ : SArray ℕ) 0 0 = none
  ∧ SArray.extend_from_slice (⟨2, 2, 0, [5, 6]⟩ : SArray ℕ) [1] = none
  ∧ SArray.double (⟨2, 2, 0, [5, 6]⟩ : SArray ℕ) = none :=
  ⟨((array_capacity_violations_abort ⟨2, 2, 0, [5, 6]⟩ 0 0 [1] (by decide) (by decide)).1
      (by decide)).1,
    ((array_capacity_violations_abort ⟨2, 2, 0, [5, 6]⟩ 0 0 [1] (by decide) (by decide)).1
      (by decide)).2,
    (array_capacity_violations_abort ⟨2, 2, 0, [5, 6]⟩ 0 0 [1] (by decide) (by decide)).2.1
      (by decide),
    (array_capacity_violations_abort ⟨2, 2, 0, [5, 6]⟩ 0 0 [1] (by decide) (by decide)).2.2.1
      (by decide)⟩

/-- A freeze pass never changes a cell that already holds a freeze
forwarding record: forwarding records are written only over live cells, so
an earlier forward stays in place for the rest of the pass. -/
theorem freeze_preserves_forwardF (fuel : ℕ) :
    (∀ (v : MValue) (st : FreezeState) (a : ℕ) (fv : FValue),
      st.heap[a]? = some (.forwardF fv) →
      ((freezeValue fuel v st).2).heap[a]? = some (.forwardF fv))
  ∧ (∀ (l : List MValue) (st : FreezeState) (a : ℕ) (fv : FValue),
      st.heap[a]? = some (.forwardF fv) →
      ((freezeMany fuel l st).2).heap[a]? = some (.forwardF fv)) := by
  induction fuel with
  | zero =>
    exact ⟨fun v st a fv h => by simpa [freezeValue] using h,
      fun l st a fv h => by simpa [freezeMany] using h⟩
  | succ n ih =>
    constructor
    · intro v st a fv h
      cases v with
      | imm k => simpa [freezeValue] using h
      | staticEmptyArray => simpa [freezeValue] using h
      | ref b =>
        cases hb : st.heap[b]? with
        | none => simpa [freezeValue, hb] using h
        | some c =>
          cases c with
          | forwardF fv2 => simpa [freezeValue, hb] using h
          | forwardT v2 => simpa [freezeValue, hb] using h
          | array content cap => simpa [freezeValue, hb] using h
          | simple payload =>
            have hab : b ≠ a := fun he => by rw [he, h] at hb; exact absurd hb (by simp)
            simpa [freezeValue, hb, List.getElem?_set_ne hab] using h
          | tuple content =>
            have hab : b ≠ a := fun he => by rw [he, h] at hb; exact absurd hb (by simp)
            have h1 : (st.heap.set b (MCell.forwardF (.ref st.arena.length)))[a]? =
                some (.forwardF fv) := by rw [List.getElem?_set_ne hab]; exact h
            have h2 := ih.2 content
              ⟨st.heap.set b (.forwardF (.ref st.arena.length)), st.arena ++ [none]⟩ a fv h1
            simp only [freezeValue, hb]
            split <;> rename_i st2 hm <;> rw [hm] at h2 <;> exact h2
          | list contentArr =>
            cases hr : readArrayContent st.heap contentArr with
            | none => simpa [freezeValue, hb, hr] using h
            | some content =>
              have hab : b ≠ a := fun he => by rw [he, h] at hb; exact absurd hb (by simp)
              by_cases hc : content = []
              · subst hc
                simpa [freezeValue, hb, hr, List.getElem?_set_ne hab] using h
              · have h1 : (st.heap.set b (MCell.forwardF (.ref st.arena.length)))[a]? =
                    some (.forwardF fv) := by rw [List.getElem?_set_ne hab]; exact h
                have h2 := ih.2 content
                  ⟨st.heap.set b (.forwardF (.ref st.arena.length)), st.arena ++ [none]⟩ a fv h1
                simp only [freezeValue, hb, hr]
                rw [if_neg (by simpa using hc)]
                split <;> rename_i st2 hm <;> rw [hm] at h2 <;> exact h2
          | complex fields freezeFails =>
            have hab : b ≠ a := fun he => by rw [he, h] at hb; exact absurd hb (by simp)
            have h1 : (st.heap.set b (MCell.forwardF (.ref st.arena.length)))[a]? =
                some (.forwardF fv) := by rw [List.getElem?_set_ne hab]; exact h
            cases freezeFails with
            | true => simpa [freezeValue, hb, List.getElem?_set_ne hab] using h
            | false =>
              have h2 := ih.2 fields
                ⟨st.heap.set b (.forwardF (.ref st.arena.length)), st.arena ++ [none]⟩ a fv h1
              simp only [freezeValue, hb]
              rw [if_neg (by simp)]
              split <;> rename_i st2 hm <;> rw [hm] at h2 <;> exact h2
    · intro l st a fv h
      cases l with
      | nil => simpa [freezeMany] using h
      | cons v vs =>
        have h1 := ih.1 v st a fv h
        simp only [freezeMany]
        split <;> rename_i st1 hm1
        · rw [hm1] at h1; exact h1
        · rw [hm1] at h1
          have h2 := ih.2 vs st1 a fv h1
          split <;> rename_i st2 hm2 <;> rw [hm2] at h2 <;> exact h2

/-- A trace (copy) pass never changes a cell that already holds a trace
forwarding record. -/
theorem copy_preserves_forwardT (fuel : ℕ) :
    (∀ (v : MValue) (st : CopyState) (a : ℕ) (w : MValue),
      st.heap[a]? = some (.forwardT w) →
      ((copyValue fuel v st).2).heap[a]? = some (.forwardT w))
  ∧ (∀ (l : List MValue) (st : CopyState) (a : ℕ) (w : MValue),
      st.heap[a]? = some (.forwardT w) →
      ((copyMany fuel l st).2).heap[a]? = some (.forwardT w)) := by
  induction fuel with
  | zero =>
    exact ⟨fun v st a w h => by simpa [copyValue] using h,
      fun l st a w h => by simpa [copyMany] using h⟩
  | succ n ih =>
    constructor
    · intro v st a w h
      cases v with
      | imm k => simpa [copyValue] using h
      | staticEmptyArray => simpa [copyValue] using h
      | ref b =>
        cases hb : st.heap[b]? with
        | none => simpa [copyValue, hb] using h
        | some c =>
          cases c with
          | forwardT w2 => simpa [copyValue, hb] using h
          | forwardF fv2 => simpa [copyValue, hb] using h
          | simple payload =>
            have hab : b ≠ a := fun he => by rw [he, h] at hb; exact absurd hb (by simp)
            simpa [copyValue, hb, List.getElem?_set_ne hab] using h
          | tuple content =>
            have hab : b ≠ a := fun he => by rw [he, h] at hb; exact absurd hb (by simp)
            have h1 : (st.heap.set b (MCell.forwardT (.ref st.dest.length)))[a]? =
                some (.forwardT w) := by rw [List.getElem?_set_ne hab]; exact h
            have h2 := ih.2 content
              ⟨st.heap.set b (.forwardT (.ref st.dest.length)), st.dest ++ [none]⟩ a w h1
            simp only [copyValue, hb]
            split <;> rename_i st2 hm <;> rw [hm] at h2 <;> exact h2
          | list contentArr =>
            have hab : b ≠ a := fun he => by rw [he, h] at hb; exact absurd hb (by simp)
            have h1 : (st.heap.set b (MCell.forwardT (.ref st.dest.length)))[a]? =
                some (.forwardT w) := by rw [List.getElem?_set_ne hab]; exact h
            have h2 := ih.1 contentArr
              ⟨st.heap.set b (.forwardT (.ref st.dest.length)), st.dest ++ [none]⟩ a w h1
            simp only [copyValue, hb]
            split <;> rename_i st2 hm <;> rw [hm] at h2 <;> exact h2
          | array content cap =>
            by_cases hc : content = []
            · subst hc
              simpa [copyValue, hb] using h
            · have hab : b ≠ a := fun he => by rw [he, h] at hb; exact absurd hb (by simp)
              have h1 : (st.heap.set b (MCell.forwardT (.ref st.dest.length)))[a]? =
                  some (.forwardT w) := by rw [List.getElem?_set_ne hab]; exact h
              have h2 := ih.2 content
                ⟨st.heap.set b (.forwardT (.ref st.dest.length)), st.dest ++ [none]⟩ a w h1
              simp only [copyValue, hb]
              rw [if_neg (by simpa using hc)]
              split <;> rename_i st2 hm <;> rw [hm] at h2 <;> exact h2
          | complex fields freezeFails =>
            have hab : b ≠ a := fun he => by rw [he, h] at hb; exact absurd hb (by simp)
            have h1 : (st.heap.set b (MCell.forwardT (.ref st.dest.length)))[a]? =
                some (.forwardT w) := by rw [List.getElem?_set_ne hab]; exact h
            have h2 := ih.2 fields
              ⟨st.heap.set b (.forwardT (.ref st.dest.length)), st.dest ++ [none]⟩ a w h1
            simp only [copyValue, hb]
            split <;> rename_i st2 hm <;> rw [hm] at h2 <;> exact h2
    · intro l st a w h
      cases l with
      | nil => simpa [copyMany] using h
      | cons v vs =>
        have h1 := ih.1 v st a w h
        simp only [copyMany]
        split <;> rename_i st1 hm1
        · rw [hm1] at h1; exact h1
        · rw [hm1] at h1
          have h2 := ih.2 vs st1 a w h1
          split <;> rename_i st2 hm2 <;> rw [hm2] at h2 <;> exact h2

/-- Claim C1: on every heap-resident value on which `heap_freeze` or
`heap_copy` performs a relocation (tuples, simple and complex payloads,
lists under freeze; those plus non-empty arrays under copy), the forwarding
record is written into the old header before the engine recurses into any
referenced sub-value, so it is present in the old header afterwards even
when the recursion fails; consequently freezing the cyclic graph of
`cyclicHeap` (list `L` at cell 0 containing tuple `T = (L,)` at cell 2)
terminates with a success, allocates each shared sub-value exactly once
(two frozen cells in total; the backing array is read through, not frozen),
and the frozen graph still contains the cycle: the frozen tuple at arena
address 0 references address 1 and the frozen list at address 1 references
address 0. -/
theorem heap_freeze_copy_forwards_before_recursion :
    (∀ (fuel a : ℕ) (st : FreezeState) (c : MCell), st.heap[a]? = some c →
      c.freezeForwards st.heap →
      ∃ fv, ((freezeValue (fuel + 1) (.ref a) st).2).heap[a]? = some (.forwardF fv))
  ∧ (∀ (fuel a : ℕ) (st : CopyState) (c : MCell), st.heap[a]? = some c →
      c.copyForwards →
      ∃ w, ((copyValue (fuel + 1) (.ref a) st).2).heap[a]? = some (.forwardT w))
  ∧ freezeValue 10 (.ref 2) ⟨cyclicHeap, []⟩ =
      (.ok (.ref 0),
        ⟨[.forwardF (.ref 1), .array [.ref 2] 2, .forwardF (.ref 0)],
          [some (.tuple [.ref 1]), some (.list [.ref 0])]⟩) := by
  refine ⟨?_, ?_, rfl⟩
  · intro fuel a st c h hfwd
    have ha : a < st.heap.length := (List.getElem?_eq_some.mp h).1
    cases c with
    | forwardF fv => exact absurd hfwd (by simp [MCell.freezeForwards])
    | forwardT v => exact absurd hfwd (by simp [MCell.freezeForwards])
    | array content cap => exact absurd hfwd (by simp [MCell.freezeForwards])
    | simple payload =>
      exact ⟨.ref st.arena.length, by simp [freezeValue, h, List.getElem?_set_self ha]⟩
    | tuple content =>
      refine ⟨.ref st.arena.length, ?_⟩
      have h1 : ((st.heap.set a (MCell.forwardF (.ref st.arena.length)))[a]? =
          some (MCell.forwardF (.ref st.arena.length))) := List.getElem?_set_self ha
      have h2 := (freeze_preserves_forwardF fuel).2 content
        ⟨st.heap.set a (.forwardF (.ref st.arena.length)), st.arena ++ [none]⟩ a
        (.ref st.arena.length) h1
      simp only [freezeValue, h]
      split <;> rename_i st2 hm <;> rw [hm] at h2 <;> exact h2
    | complex fields freezeFails =>
      refine ⟨.ref st.arena.length, ?_⟩
      have h1 : ((st.heap.set a (MCell.forwardF (.ref st.arena.length)))[a]? =
          some (MCell.forwardF (.ref st.arena.length))) := List.getElem?_set_self ha
      cases freezeFails with
      | true => simpa [freezeValue, h] using h1
      | false =>
        have h2 := (freeze_preserves_forwardF fuel).2 fields
          ⟨st.heap.set a (.forwardF (.ref st.arena.length)), st.arena ++ [none]⟩ a
          (.ref st.arena.length) h1
        simp only [freezeValue, h]
        rw [if_neg (by simp)]
        split <;> rename_i st2 hm <;> rw [hm] at h2 <;> exact h2
    | list contentArr =>
      obtain ⟨content, hr⟩ := hfwd
      by_cases hc : content = []
      · subst hc
        exact ⟨.emptyFrozenList, by simp [freezeValue, h, hr, List.getElem?_set_self ha]⟩
      · refine ⟨.ref st.arena.length, ?_⟩
        have h1 : ((st.heap.set a (MCell.forwardF (.ref st.arena.length)))[a]? =
            some (MCell.forwardF (.ref st.arena.length))) := List.getElem?_set_self ha
        have h2 := (freeze_preserves_forwardF fuel).2 content
          ⟨st.heap.set a (.forwardF (.ref st.arena.length)), st.arena ++ [none]⟩ a
          (.ref st.arena.length) h1
        simp only [freezeValue, h, hr]
        rw [if_neg (by simpa using hc)]
        split <;> rename_i st2 hm <;> rw [hm] at h2 <;> exact h2
  · intro fuel a st c h hfwd
    have ha : a < st.heap.length := (List.getElem?_eq_some.mp h).1
    cases c with
    | forwardF fv => exact absurd hfwd (by simp [MCell.copyForwards])
    | forwardT v => exact absurd hfwd (by simp [MCell.copyForwards])
    | simple payload =>
      exact ⟨.ref st.dest.length, by simp [copyValue, h, List.getElem?_set_self ha]⟩
    | tuple content =>
      refine ⟨.ref st.dest.length, ?_⟩
      have h1 : ((st.heap.set a (MCell.forwardT (.ref st.dest.length)))[a]? =
          some (MCell.forwardT (.ref st.dest.length))) := List.getElem?_set_self ha
      have h2 := (copy_preserves_forwardT fuel).2 content
        ⟨st.heap.set a (.forwardT (.ref st.dest.length)), st.dest ++ [none]⟩ a
        (.ref st.dest.length) h1
      simp only [copyValue, h]
      split <;> rename_i st2 hm <;> rw [hm] at h2 <;> exact h2
    | list contentArr =>
      refine ⟨.ref st.dest.length, ?_⟩
      have h1 : ((st.heap.set a (MCell.forwardT (.ref st.dest.length)))[a]? =
          some (MCell.forwardT (.ref st.dest.length))) := List.getElem?_set_self ha
      have h2 := (copy_preserves_forwardT fuel).1 contentArr
        ⟨st.heap.set a (.forwardT (.ref st.dest.length)), st.dest ++ [none]⟩ a
        (.ref st.dest.length) h1
      simp only [copyValue, h]
      split <;> rename_i st2 hm <;> rw [hm] at h2 <;> exact h2
    | array content cap =>
      have hc : content ≠ [] := hfwd
      refine ⟨.ref st.dest.length, ?_⟩
      have h1 : ((st.heap.set a (MCell.forwardT (.ref st.dest.length)))[a]? =
          some (MCell.forwardT (.ref st.dest.length))) := List.getElem?_set_self ha
      have h2 := (copy_preserves_forwardT fuel).2 content
        ⟨st.heap.set a (.forwardT (.ref st.dest.length)), st.dest ++ [none]⟩ a
        (.ref st.dest.length) h1
      simp only [copyValue, h]
      rw [if_neg (by simpa using hc)]
      split <;> rename_i st2 hm <;> rw [hm] at h2 <;> exact h2
    | complex fields freezeFails =>
      refine ⟨.ref st.dest.length, ?_⟩
      have h1 : ((st.heap.set a (MCell.forwardT (.ref st.dest.length)))[a]? =
          some (MCell.forwardT (.ref st.dest.length))) := List.getElem?_set_self ha
      have h2 := (copy_preserves_forwardT fuel).2 fields
        ⟨st.heap.set a (.forwardT (.ref st.dest.length)), st.dest ++ [none]⟩ a
        (.ref st.dest.length) h1
      simp only [copyValue, h]
      split <;> rename_i st2 hm <;> rw [hm] at h2 <;> exact h2

theorem heap_freeze_copy_forwards_before_recursion_witness :
    (∃ fv, ((freezeValue 1 (.ref 0) ⟨[.simple 3], []⟩).2).heap[0]? = some (.forwardF fv))
  ∧ (∃ w, ((copyValue 1 (.ref 0) ⟨[.tuple [.imm 4]], []⟩).2).heap[0]? =
      some (.forwardT w)) :=
  ⟨heap_freeze_copy_forwards_before_recursion.1 0 0 ⟨[.simple 3], []⟩ (.simple 3) rfl
      trivial,
    heap_freeze_copy_forwards_before_recursion.2.1 0 0 ⟨[.tuple [.imm 4]], []⟩
      (.tuple [.imm 4]) rfl trivial⟩

/-- Claim C2, amended: when freezing any sub-value fails, the whole freeze
returns that error, so no frozen value is handed to the caller; however the
mutable heap does not stay untouched: the failing complex value (and every
sub-value already frozen) is left overwritten with a forwarding record, its
frozen reservation left unfilled — the freeze consumes the heap, so this is
unobservable through the API.  Stated here: a complex cell whose freeze
hook declines makes `heap_freeze` return the hook's error with the old
header already forwarded and the reservation left in the arena, and an
error from freezing the elements of a list or tuple is returned unchanged
as the result of the containing freeze. -/
theorem freeze_failure_propagates_amended :
    (∀ (fuel a : ℕ) (st : FreezeState) (fields : List MValue),
      st.heap[a]? = some (.complex fields true) →
      freezeValue (fuel + 1) (.ref a) st =
        (.error .unfreezable,
          ⟨st.heap.set a (.forwardF (.ref st.arena.length)), st.arena ++ [none]⟩))
  ∧ (∀ (fuel a : ℕ) (st : FreezeState) (content : List MValue) (p : MValue)
        (e : FreezeError) (st2 : FreezeState),
      st.heap[a]? = some (.list p) →
      readArrayContent st.heap p = some content → content ≠ [] →
      freezeMany fuel content
        ⟨st.heap.set a (.forwardF (.ref st.arena.length)), st.arena ++ [none]⟩ =
        (.error e, st2) →
      freezeValue (fuel + 1) (.ref a) st = (.error e, st2))
  ∧ (∀ (fuel a : ℕ) (st : FreezeState) (content : List MValue)
        (e : FreezeError) (st2 : FreezeState),
      st.heap[a]? = some (.tuple content) →
      freezeMany fuel content
        ⟨st.heap.set a (.forwardF (.ref st.arena.length)), st.arena ++ [none]⟩ =
        (.error e, st2) →
      freezeValue (fuel + 1) (.ref a) st = (.error e, st2)) := by
  refine ⟨?_, ?_, ?_⟩
  · intro fuel a st fields h
    simp [freezeValue, h]
  · intro fuel a st content p e st2 h hr hc hm
    simp only [freezeValue, h, hr]
    rw [if_neg (by simpa using hc), hm]
  · intro fuel a st content e st2 h hm
    simp only [freezeValue, h]
    rw [hm]

theorem freeze_failure_propagates_amended_witness :
    freezeValue 1 (.ref 0) ⟨[.complex [] true], []⟩ =
      (.error .unfreezable, ⟨[.forwardF (.ref 0)], [none]⟩) :=
  freeze_failure_propagates_amended.1 0 0 ⟨[.complex [] true], []⟩ [] rfl

/-- The `i32 -> f64` cast is exact: the encoded bit pattern has the value
of the integer, for any integer of magnitude below `2 ^ 52`. -/
theorem f64OfInt_val (i : ℤ) (h : i.natAbs < 2 ^ 52) : (f64OfInt i).val = (i : ℚ) := by
  by_cases h0 : i = 0
  · subst h0; simp [f64OfInt, F64.val]
  · have hm : i.natAbs ≠ 0 := fun hh => h0 (Int.natAbs_eq_zero.mp hh)
    have he3 : Nat.log2 i.natAbs < 52 := (Nat.log2_lt hm).mpr h
    have he1 : 2 ^ Nat.log2 i.natAbs ≤ i.natAbs := Nat.log2_self_le hm
    have hfge : 2 ^ 52 ≤ i.natAbs * 2 ^ (52 - Nat.log2 i.natAbs) := by
      calc (2 : ℕ) ^ 52 = 2 ^ Nat.log2 i.natAbs * 2 ^ (52 - Nat.log2 i.natAbs) := by
            rw [← pow_add]; congr 1; omega
        _ ≤ i.natAbs * 2 ^ (52 - Nat.log2 i.natAbs) :=
            Nat.mul_le_mul_right _ he1
    have hrepr : f64OfInt i =
        ⟨decide (i < 0), Nat.log2 i.natAbs + 1023,
          i.natAbs * 2 ^ (52 - Nat.log2 i.natAbs) - 2 ^ 52⟩ := by
      rw [f64OfInt, if_neg h0]
    rw [hrepr]
    simp only [F64.val]
    rw [if_neg (by omega : ¬(Nat.log2 i.natAbs + 1023 = 0))]
    rw [Nat.add_sub_cancel' hfge]
    have hexp : ((Nat.log2 i.natAbs + 1023 : ℕ) : ℤ) - 1075 =
        (Nat.log2 i.natAbs : ℤ) - 52 := by push_cast; ring
    rw [hexp]
    have hpow : ((i.natAbs * 2 ^ (52 - Nat.log2 i.natAbs) : ℕ) : ℚ) *
        (2 : ℚ) ^ ((Nat.log2 i.natAbs : ℤ) - 52) = (i.natAbs : ℚ) := by
      push_cast
      rw [mul_assoc, ← zpow_natCast (2 : ℚ) (52 - Nat.log2 i.natAbs),
        ← zpow_add₀ (two_ne_zero : (2 : ℚ) ≠ 0)]
      rw [show ((52 - Nat.log2 i.natAbs : ℕ) : ℤ) + ((Nat.log2 i.natAbs : ℤ) - 52) = 0 by
        rw [Nat.cast_sub (by omega : Nat.log2 i.natAbs ≤ 52)]; ring]
      simp
    rw [hpow]
    by_cases hi : i < 0
    · simp only [hi, decide_eq_true_eq, if_pos trivial, Int.cast_natAbs]
      rw [abs_of_neg hi]
      push_cast
      ring
    · simp only [hi, Int.cast_natAbs]
      simp only [decide_eq_true_eq, if_false]
      rw [abs_of_nonneg (not_lt.mp hi)]

/-- The bit pattern of a cast integer is neither a NaN nor an infinity. -/
theorem f64OfInt_not_nan_inf (i : ℤ) (h : i.natAbs < 2 ^ 52) :
    (f64OfInt i).isNan = false ∧ (f64OfInt i).isInfinite = false := by
  by_cases h0 : i = 0
  · subst h0; constructor <;> rfl
  · have hm : i.natAbs ≠ 0 := fun hh => h0 (Int.natAbs_eq_zero.mp hh)
    have he3 : Nat.log2 i.natAbs < 52 := (Nat.log2_lt hm).mpr h
    rw [f64OfInt, if_neg h0]
    constructor <;> simp [F64.isNan, F64.isInfinite] <;> omega

/-- Truncation toward zero of an integer-valued rational is the integer. -/
theorem ratTrunc_intCast (i : ℤ) : ratTrunc (i : ℚ) = i := by
  unfold ratTrunc
  split <;> simp

/-- The cast `(i as f64) as i32` is the identity on the `i32` range. -/
theorem f64OfInt_toI32 (i : ℤ) (h1 : -(2 ^ 31) ≤ i) (h2 : i < 2 ^ 31) :
    (f64OfInt i).toI32 = i := by
  have hlt : i.natAbs < 2 ^ 52 := by omega
  have hnn := f64OfInt_not_nan_inf i hlt
  unfold F64.toI32
  rw [hnn.1, hnn.2]
  simp only [Bool.false_eq_true, if_false]
  rw [f64OfInt_val i hlt, ratTrunc_intCast]
  omega

/-- `Num::as_int` on the float image of an `i32` recovers the integer. -/
theorem as_int_f64OfInt (i : ℤ) (h1 : -(2 ^ 31) ≤ i) (h2 : i < 2 ^ 31) :
    (Num.float (f64OfInt i)).as_int = some i := by
  have hlt : i.natAbs < 2 ^ 52 := by omega
  have hnn := f64OfInt_not_nan_inf i hlt
  have heq : (f64OfInt i).ieeeEq (f64OfInt i) = true := by
    unfold F64.ieeeEq
    rw [hnn.1, hnn.2]
    simp
  simp only [Num.as_int, f64OfInt_toI32 i h1 h2, heq, if_true]

/-- Every NaN bit pattern hashes to 0. -/
theorem nan_hash (a : F64) (ha : a.isNan = true) : (Num.float a).get_hash_64 = 0 := by
  have h1 : a.toI32 = 0 := by unfold F64.toI32; rw [ha]; simp
  have h2 : a.ieeeEq (f64OfInt 0) = false := by unfold F64.ieeeEq; rw [ha]; simp
  have h3 : (Num.float a).as_int = none := by
    simp only [Num.as_int, h1, h2]
    simp
  simp only [Num.get_hash_64, h3, ha, if_true]

/-- A zero bit pattern of either sign hashes like the integer 0. -/
theorem zero_hash (s : Bool) : (Num.float ⟨s, 0, 0⟩).get_hash_64 = 0 := by
  have hval : F64.val ⟨s, 0, 0⟩ = 0 := by cases s <;> simp [F64.val]
  have hnan : F64.isNan ⟨s, 0, 0⟩ = false := by cases s <;> rfl
  have hinf : F64.isInfinite ⟨s, 0, 0⟩ = false := by cases s <;> rfl
  have htr : ratTrunc (F64.val ⟨s, 0, 0⟩) = 0 := by
    rw [hval]; unfold ratTrunc; simp
  have htoI32 : F64.toI32 ⟨s, 0, 0⟩ = 0 := by
    unfold F64.toI32
    rw [hnan, hinf]
    simp only [Bool.false_eq_true, if_false, htr]
    norm_num
  have heq : F64.ieeeEq ⟨s, 0, 0⟩ (f64OfInt 0) = true := by
    unfold F64.ieeeEq
    rw [show f64OfInt 0 = ⟨false, 0, 0⟩ from rfl, hnan, hinf]
    simp [hval, show F64.val ⟨false, 0, 0⟩ = 0 by simp [F64.val],
      show F64.isNan ⟨false, 0, 0⟩ = false from rfl,
      show F64.isInfinite ⟨false, 0, 0⟩ = false from rfl]
  have has : (Num.float ⟨s, 0, 0⟩).as_int = some 0 := by
    simp only [Num.as_int, htoI32, heq, if_true]
  simp only [Num.get_hash_64, has]
  rfl

/-- Claim C3: numeric hash unification: for every `i32` value `i`,
`hash(Int(i)) = hash(Float(i as f64))`; any two NaN bit patterns hash
equally; and `0.0` and `-0.0` hash equally. -/
theorem num_hash_unification :
    (∀ i : ℤ, -(2 ^ 31) ≤ i → i < 2 ^ 31 →
      (Num.int i).get_hash_64 = (Num.float (f64OfInt i)).get_hash_64)
  ∧ (∀ a b : F64, a.isNan = true → b.isNan = true →
      (Num.float a).get_hash_64 = (Num.float b).get_hash_64)
  ∧ (Num.float ⟨false, 0, 0⟩).get_hash_64 = (Num.float ⟨true, 0, 0⟩).get_hash_64 := by
  refine ⟨?_, ?_, by rw [zero_hash false, zero_hash true]⟩
  · intro i h1 h2
    have ha := as_int_f64OfInt i h1 h2
    have hR : (Num.float (f64OfInt i)).get_hash_64 = u64OfInt i := by
      simp only [Num.get_hash_64, ha]
    rw [hR]
    rfl
  · intro a b ha hb
    rw [nan_hash a ha, nan_hash b hb]

theorem num_hash_unification_witness :
    (Num.int 5).get_hash_64 = (Num.float (f64OfInt 5)).get_hash_64
  ∧ (Num.float ⟨false, 2047, 1⟩).get_hash_64 = (Num.float ⟨true, 2047, 99⟩).get_hash_64 :=
  ⟨num_hash_unification.1 5 (by norm_num) (by norm_num),
    num_hash_unification.2.1 ⟨false, 2047, 1⟩ ⟨true, 2047, 99⟩ (by decide) (by decide)⟩

/-- Claim C1, counterexample: `heap_copy` invoked on an array whose length
is zero (capacity 5) returns the static empty array and writes no
forwarding record at all: the old header still holds the live array cell
afterwards, so the claim's universal "the forwarding record is written into
the old header" fails for arrays that are empty (they have no sub-values to
recurse into). -/
theorem copy_empty_array_no_forward_counterexample :
    (copyValue 1 (.ref 0) ⟨[.array [] 5], []⟩).1 = .ok .staticEmptyArray
  ∧ ((copyValue 1 (.ref 0) ⟨[.array [] 5], []⟩).2).heap[0]? = some (.array [] 5)
  ∧ ((copyValue 1 (.ref 0) ⟨[.array [] 5], []⟩).2).dest = [] :=
  ⟨rfl, rfl, rfl⟩

end Starlark
